import Mathlib

/-!
Verification of the deriv-fast-backend DerivClient (src/unnamed/part_000).

The development shallowly embeds the trade-execution engine, the pending-request
correlation table, the tick buffer, the reconnect backoff computation and the
inbound message dispatcher as executable Lean definitions, and proves the
specified properties about them.
-/

namespace Deriv

/-! ## Trade engine data model

Phases of a trade as described by the data model: a trade is created Queued,
advances through Proposing, Executing, AwaitingSettlement while it holds the
execution slot, and terminates at Settled, TimedOut or Failed. -/

inductive TPhase where
  | Queued
  | Proposing
  | Executing
  | AwaitingSettlement
  | Settled
  | TimedOut
  | Failed
  deriving DecidableEq, Repr

/-- A phase is active when the trade occupies the execution slot and is still
running its propose-execute-await protocol. -/
def TPhase.isActive : TPhase → Bool
  | .Proposing => true
  | .Executing => true
  | .AwaitingSettlement => true
  | _ => false

/-- The lastResult record written by the proposal_open_contract handler
(lines 114-126), the timeout callback (lines 267-276) and the error catch
(line 294) of part_000.  Timestamps are not modelled. -/
structure TradeResult where
  contract_id : Option Nat
  status : String
  is_sold : Bool
  profit : Option Int
  payout : Option Int
  buy_price : Option Int
  sell_price : Option Int
  deriving DecidableEq, Repr

/-- Payload of a proposal_open_contract stream message (the fields the
handler at lines 104-129 reads). -/
structure Poc where
  contract_id : Nat
  is_sold : Bool
  status : String
  profit : Option Int
  payout : Option Int
  buy_price : Option Int
  sell_price : Option Int
  deriving DecidableEq, Repr

/-- Finality test of the handler: is_sold is truthy or status is won or lost
(line 112). -/
def isFinalPoc (p : Poc) : Bool :=
  p.is_sold || (p.status = "won" || p.status = "lost")

/-- lastResult built from a final proposal_open_contract event (lines 114-126). -/
def resultOfPoc (p : Poc) : TradeResult :=
  { contract_id := some p.contract_id
    status := p.status
    is_sold := p.is_sold
    profit := p.profit
    payout := p.payout
    buy_price := p.buy_price
    sell_price := p.sell_price }

/-- lastResult written by the timeout callback (lines 267-276). -/
def timeoutResult (cid : Nat) : TradeResult :=
  { contract_id := some cid
    status := "timeout"
    is_sold := false
    profit := none
    payout := none
    buy_price := none
    sell_price := none }

/-- lastResult written by the catch handler of _finishTrade (line 294). -/
def errResult : TradeResult :=
  { contract_id := none
    status := "error"
    is_sold := false
    profit := none
    payout := none
    buy_price := none
    sell_price := none }

/-- Kinds of outbound requests issued by the trade engine, a ghost log used to
state that a given request was or was not sent. -/
inductive SendKind where
  | proposal
  | buy
  | pocSub
  deriving DecidableEq, Repr

/-- State of the trade engine: the fields of state.trade (inProgress, active,
queue, lastResult) together with ghost bookkeeping.  Trades are identified by
their submission index; phase i is the phase of the i-th submitted trade
(i < numTrades).  activeIdx mirrors state.trade.active (the identity of the
trade object in the slot), activeCid its contractId field.  fromQueue records
whether the slot holder was started by the queue drain of _finishTrade (whose
failures are caught at lines 292-298) rather than directly by placeTrade
(whose failures propagate to the caller).  sent is a ghost log of outbound
trade requests. -/
structure EngState where
  numTrades : Nat
  phase : Nat → TPhase
  inProgress : Bool
  activeIdx : Option Nat
  activeCid : Option Nat
  fromQueue : Bool
  queue : List Nat
  lastResult : Option TradeResult
  authorized : Bool
  sent : List SendKind

/-- Pointwise update of the ghost phase map. -/
def setPhase (f : Nat → TPhase) (i : Nat) (p : TPhase) : Nat → TPhase :=
  fun j => if j = i then p else f j

/-- Events driving the trade engine: placeTrade submissions, resolutions of the
awaited sends inside _startTrade (success or rejection), the buy stream
message handler, final settlement events, the safety timeout callback, and
changes of the authorized flag. -/
inductive Ev where
  | submit
  | proposalOk
  | proposalFail
  | buyOk (cid : Nat)
  | buyFail
  | pocSubFail
  | buyMsg (cid : Nat)
  | settle (p : Poc)
  | timeout (cid : Nat)
  | authChange (b : Bool)
  deriving DecidableEq

/-- Effect of a failure thrown while the active trade runs _startTrade.
When the trade was started by the queue drain, the catch handler at lines
292-298 records an error result and re-frees the slot.  When it was started
directly by placeTrade, the rejection propagates to the caller and the slot
state is not touched. -/
def startFail (s : EngState) (i : Nat) : EngState :=
  if s.fromQueue then
    { s with phase := setPhase s.phase i .Failed
             activeIdx := none
             inProgress := false
             activeCid := none
             fromQueue := false
             lastResult := some errResult }
  else
    { s with phase := setPhase s.phase i .Failed }

/-- _finishTrade (lines 284-302): clear the slot, then start the next queued
trade if one exists.  Starting the next trade throws synchronously when not
authorized (line 218); that rejection is caught at lines 292-298, recording an
error result with the slot left free. -/
def finishTrade (s : EngState) : EngState :=
  let s0 := { s with activeIdx := none
                     inProgress := false
                     activeCid := none
                     fromQueue := false }
  match s0.queue with
  | [] => s0
  | j :: rest =>
    if s0.authorized then
      { s0 with queue := rest
                activeIdx := some j
                inProgress := true
                phase := setPhase s0.phase j .Proposing
                fromQueue := true
                sent := s0.sent ++ [.proposal] }
    else
      { s0 with queue := rest
                phase := setPhase s0.phase j .Failed
                lastResult := some errResult }

/-- One engine step.  submit mirrors placeTrade (lines 203-215) and the
synchronous prefix of _startTrade (lines 217-249); the response events mirror
the resumption points of _startTrade; buyMsg mirrors the buy stream handler
(lines 97-102); settle mirrors the proposal_open_contract handler
(lines 104-129); timeout mirrors the safety timeout callback (lines 263-279). -/
def step (s : EngState) : Ev → EngState
  | .submit =>
    if s.inProgress then
      { s with numTrades := s.numTrades + 1
               phase := setPhase s.phase s.numTrades .Queued
               queue := s.queue ++ [s.numTrades] }
    else if s.authorized then
      { s with numTrades := s.numTrades + 1
               phase := setPhase s.phase s.numTrades .Proposing
               activeIdx := some s.numTrades
               inProgress := true
               activeCid := none
               fromQueue := false
               sent := s.sent ++ [.proposal] }
    else
      { s with numTrades := s.numTrades + 1
               phase := setPhase s.phase s.numTrades .Failed }
  | .proposalOk =>
    match s.activeIdx with
    | some i =>
      if s.phase i = .Proposing then
        { s with phase := setPhase s.phase i .Executing
                 sent := s.sent ++ [.buy] }
      else s
    | none => s
  | .proposalFail =>
    match s.activeIdx with
    | some i => if s.phase i = .Proposing then startFail s i else s
    | none => s
  | .buyOk cid =>
    match s.activeIdx with
    | some i =>
      if s.phase i = .Executing then
        { s with phase := setPhase s.phase i .AwaitingSettlement
                 activeCid := some cid
                 sent := s.sent ++ [.pocSub] }
      else s
    | none => s
  | .buyFail =>
    match s.activeIdx with
    | some i => if s.phase i = .Executing then startFail s i else s
    | none => s
  | .pocSubFail =>
    match s.activeIdx with
    | some i => if s.phase i = .AwaitingSettlement then startFail s i else s
    | none => s
  | .buyMsg cid =>
    match s.activeIdx with
    | some _ => { s with activeCid := some cid }
    | none => s
  | .settle p =>
    match s.activeIdx with
    | some i =>
      if s.activeCid = some p.contract_id ∧ isFinalPoc p = true then
        finishTrade { s with phase := setPhase s.phase i .Settled
                             lastResult := some (resultOfPoc p) }
      else s
    | none => s
  | .timeout cid =>
    match s.activeIdx with
    | some i =>
      if s.activeCid = some cid ∧ s.inProgress = true then
        finishTrade { s with phase := setPhase s.phase i .TimedOut
                             lastResult := some (timeoutResult cid) }
      else s
    | none => s
  | .authChange b => { s with authorized := b }

/-- Initial engine state (fresh process, no trades). -/
def initEng (auth : Bool) : EngState :=
  { numTrades := 0
    phase := fun _ => .Failed
    inProgress := false
    activeIdx := none
    activeCid := none
    fromQueue := false
    queue := []
    lastResult := none
    authorized := auth
    sent := [] }

/-- Run the engine over a sequence of events. -/
def run (auth : Bool) (evs : List Ev) : EngState :=
  evs.foldl step (initEng auth)

theorem setPhase_self (f : Nat → TPhase) (i : Nat) (p : TPhase) : setPhase f i p i = p := by
  simp [setPhase]

theorem setPhase_other (f : Nat → TPhase) (i j : Nat) (p : TPhase) (h : j ≠ i) :
    setPhase f i p j = f j := by
  simp [setPhase, h]

/-- Inductive invariant of the trade engine: every trade in an active phase is
the slot holder (and the slot is marked busy); the slot holder exists and is
not Queued; queued trades are Queued, in range, and listed without
duplicates. -/
def Inv (s : EngState) : Prop :=
  (∀ i, i < s.numTrades → (s.phase i).isActive = true → s.activeIdx = some i ∧ s.inProgress = true)
  ∧ (∀ i, s.activeIdx = some i → i < s.numTrades ∧ s.phase i ≠ .Queued)
  ∧ (∀ j, j ∈ s.queue → j < s.numTrades ∧ s.phase j = .Queued)
  ∧ s.queue.Nodup

theorem inv_initEng (auth : Bool) : Inv (initEng auth) := by
  refine ⟨?_, ?_, ?_, ?_⟩ <;> simp [initEng]

theorem inv_startFail (s : EngState) (i : Nat) (hInv : Inv s) (hA : s.activeIdx = some i) :
    Inv (startFail s i) := by
  obtain ⟨h1, h2, h3, h4⟩ := hInv
  have hiq : ∀ j, j ∈ s.queue → j ≠ i := by
    intro j hj he
    subst he
    exact (h2 j hA).2 (h3 j hj).2
  unfold startFail
  by_cases hq : s.fromQueue = true
  · rw [if_pos hq]
    refine ⟨?_, ?_, ?_, ?_⟩
    · intro k hk hact
      dsimp only at hk hact ⊢
      by_cases hki : k = i
      · subst hki
        rw [setPhase_self] at hact
        simp [TPhase.isActive] at hact
      · rw [setPhase_other _ _ _ _ hki] at hact
        have hkA := (h1 k hk hact).1
        rw [hA] at hkA
        exact absurd (Option.some_injective _ hkA.symm) hki
    · intro k hk
      dsimp only at hk
      exact absurd hk (by simp)
    · intro j hj
      dsimp only at hj ⊢
      refine ⟨(h3 j hj).1, ?_⟩
      rw [setPhase_other _ _ _ _ (hiq j hj)]
      exact (h3 j hj).2
    · exact h4
  · rw [if_neg hq]
    refine ⟨?_, ?_, ?_, ?_⟩
    · intro k hk hact
      dsimp only at hk hact ⊢
      by_cases hki : k = i
      · subst hki
        rw [setPhase_self] at hact
        simp [TPhase.isActive] at hact
      · rw [setPhase_other _ _ _ _ hki] at hact
        have hkA := (h1 k hk hact).1
        rw [hA] at hkA
        exact absurd (Option.some_injective _ hkA.symm) hki
    · intro k hk
      dsimp only at hk ⊢
      rw [hA] at hk
      obtain rfl : i = k := Option.some_injective _ hk
      refine ⟨(h2 i hA).1, ?_⟩
      rw [setPhase_self]
      simp
    · intro j hj
      dsimp only at hj ⊢
      refine ⟨(h3 j hj).1, ?_⟩
      rw [setPhase_other _ _ _ _ (hiq j hj)]
      exact (h3 j hj).2
    · exact h4

theorem inv_finishTrade (s : EngState)
    (hNoAct : ∀ k, k < s.numTrades → (s.phase k).isActive = false)
    (hQue : ∀ j, j ∈ s.queue → j < s.numTrades ∧ s.phase j = .Queued)
    (hNodup : s.queue.Nodup) : Inv (finishTrade s) := by
  unfold finishTrade
  dsimp only
  cases hq : s.queue with
  | nil =>
    dsimp only
    refine ⟨?_, ?_, ?_, ?_⟩
    · intro k hk hact
      dsimp only at hk hact
      have hf := hNoAct k hk
      rw [hact] at hf
      exact Bool.noConfusion hf
    · intro k hk
      exact absurd hk (by simp)
    · intro j hj
      exact absurd hj (by simp)
    · exact List.nodup_nil
  | cons j rest =>
    dsimp only
    have hjmem : j ∈ s.queue := by rw [hq]; exact List.mem_cons_self _ _
    have hjq := hQue j hjmem
    have hnd : j ∉ rest ∧ rest.Nodup := by
      rw [hq] at hNodup
      exact List.nodup_cons.mp hNodup
    have hmem : ∀ j', j' ∈ rest → j' < s.numTrades ∧ s.phase j' = TPhase.Queued := by
      intro j' hj'
      exact hQue j' (by rw [hq]; exact List.mem_cons_of_mem _ hj')
    by_cases hauth : s.authorized = true
    · rw [if_pos hauth]
      refine ⟨?_, ?_, ?_, ?_⟩
      · intro k hk hact
        dsimp only at hk hact ⊢
        by_cases hkj : k = j
        · subst hkj
          exact ⟨rfl, rfl⟩
        · rw [setPhase_other _ _ _ _ hkj] at hact
          have hf := hNoAct k hk
          rw [hact] at hf
          exact Bool.noConfusion hf
      · intro k hk
        dsimp only at hk ⊢
        obtain rfl : j = k := Option.some_injective _ hk
        refine ⟨hjq.1, ?_⟩
        rw [setPhase_self]
        simp
      · intro j' hj'
        dsimp only at hj' ⊢
        have hj'j : j' ≠ j := fun he => hnd.1 (he ▸ hj')
        refine ⟨(hmem j' hj').1, ?_⟩
        rw [setPhase_other _ _ _ _ hj'j]
        exact (hmem j' hj').2
      · exact hnd.2
    · rw [if_neg hauth]
      refine ⟨?_, ?_, ?_, ?_⟩
      · intro k hk hact
        dsimp only at hk hact
        by_cases hkj : k = j
        · subst hkj
          rw [setPhase_self] at hact
          simp [TPhase.isActive] at hact
        · rw [setPhase_other _ _ _ _ hkj] at hact
          have hf := hNoAct k hk
          rw [hact] at hf
          exact Bool.noConfusion hf
      · intro k hk
        dsimp only at hk
        exact absurd hk (by simp)
      · intro j' hj'
        dsimp only at hj' ⊢
        have hj'j : j' ≠ j := fun he => hnd.1 (he ▸ hj')
        refine ⟨(hmem j' hj').1, ?_⟩
        rw [setPhase_other _ _ _ _ hj'j]
        exact (hmem j' hj').2
      · exact hnd.2

theorem queue_ne_active (s : EngState) (i : Nat) (hInv : Inv s) (hA : s.activeIdx = some i) :
    ∀ j, j ∈ s.queue → j ≠ i := by
  obtain ⟨_, h2, h3, _⟩ := hInv
  intro j hj he
  subst he
  exact (h2 j hA).2 (h3 j hj).2

/-- Hypotheses of inv_finishTrade hold for the state obtained by giving the
slot holder a non-active, non-Queued terminal phase. -/
theorem finish_pre (s : EngState) (i : Nat) (p : TPhase) (hInv : Inv s)
    (hA : s.activeIdx = some i) (hp1 : p.isActive = false)
    (r : Option TradeResult) :
    Inv (finishTrade { s with phase := setPhase s.phase i p, lastResult := r }) := by
  obtain ⟨h1, h2, h3, h4⟩ := hInv
  have hiq := queue_ne_active s i ⟨h1, h2, h3, h4⟩ hA
  apply inv_finishTrade
  · intro k hk
    dsimp only at hk ⊢
    by_cases hki : k = i
    · subst hki
      rw [setPhase_self]
      exact hp1
    · rw [setPhase_other _ _ _ _ hki]
      cases hb : (s.phase k).isActive with
      | false => rfl
      | true =>
        have hkA := (h1 k hk hb).1
        rw [hA] at hkA
        exact absurd (Option.some_injective _ hkA.symm) hki
  · intro j hj
    dsimp only at hj ⊢
    refine ⟨(h3 j hj).1, ?_⟩
    rw [setPhase_other _ _ _ _ (hiq j hj)]
    exact (h3 j hj).2
  · exact h4

theorem inv_step (s : EngState) (e : Ev) (hInv : Inv s) : Inv (step s e) := by
  obtain ⟨h1, h2, h3, h4⟩ := hInv
  cases e with
  | submit =>
    simp only [step]
    by_cases hP : s.inProgress = true
    · rw [if_pos hP]
      refine ⟨?_, ?_, ?_, ?_⟩
      · intro k hk hact
        dsimp only at hk hact ⊢
        by_cases hkn : k = s.numTrades
        · subst hkn
          rw [setPhase_self] at hact
          simp [TPhase.isActive] at hact
        · have hk' : k < s.numTrades := by omega
          rw [setPhase_other _ _ _ _ hkn] at hact
          exact h1 k hk' hact
      · intro k hk
        dsimp only at hk ⊢
        have hlt := (h2 k hk).1
        refine ⟨by omega, ?_⟩
        rw [setPhase_other _ _ _ _ (by omega : k ≠ s.numTrades)]
        exact (h2 k hk).2
      · intro j hj
        dsimp only at hj ⊢
        rcases List.mem_append.mp hj with hj | hj
        · have := h3 j hj
          refine ⟨by omega, ?_⟩
          rw [setPhase_other _ _ _ _ (by omega : j ≠ s.numTrades)]
          exact this.2
        · have hjn : j = s.numTrades := by simpa using hj
          subst hjn
          refine ⟨by omega, ?_⟩
          rw [setPhase_self]
      · dsimp only
        rw [List.nodup_append]
        refine ⟨h4, by simp, ?_⟩
        intro a ha ha'
        have haeq : a = s.numTrades := by simpa using ha'
        subst haeq
        exact absurd (h3 _ ha).1 (by omega)
    · rw [if_neg hP]
      by_cases hAu : s.authorized = true
      · rw [if_pos hAu]
        refine ⟨?_, ?_, ?_, ?_⟩
        · intro k hk hact
          dsimp only at hk hact ⊢
          by_cases hkn : k = s.numTrades
          · subst hkn
            exact ⟨rfl, rfl⟩
          · have hk' : k < s.numTrades := by omega
            rw [setPhase_other _ _ _ _ hkn] at hact
            exact absurd (h1 k hk' hact).2 hP
        · intro k hk
          dsimp only at hk ⊢
          obtain rfl : s.numTrades = k := Option.some_injective _ hk
          refine ⟨by omega, ?_⟩
          rw [setPhase_self]
          simp
        · intro j hj
          dsimp only at hj ⊢
          have := h3 j hj
          refine ⟨by omega, ?_⟩
          rw [setPhase_other _ _ _ _ (by omega : j ≠ s.numTrades)]
          exact this.2
        · exact h4
      · rw [if_neg hAu]
        refine ⟨?_, ?_, ?_, ?_⟩
        · intro k hk hact
          dsimp only at hk hact ⊢
          by_cases hkn : k = s.numTrades
          · subst hkn
            rw [setPhase_self] at hact
            simp [TPhase.isActive] at hact
          · have hk' : k < s.numTrades := by omega
            rw [setPhase_other _ _ _ _ hkn] at hact
            exact absurd (h1 k hk' hact).2 hP
        · intro k hk
          dsimp only at hk ⊢
          have hlt := (h2 k hk).1
          refine ⟨by omega, ?_⟩
          rw [setPhase_other _ _ _ _ (by omega : k ≠ s.numTrades)]
          exact (h2 k hk).2
        · intro j hj
          dsimp only at hj ⊢
          have := h3 j hj
          refine ⟨by omega, ?_⟩
          rw [setPhase_other _ _ _ _ (by omega : j ≠ s.numTrades)]
          exact this.2
        · exact h4
  | proposalOk =>
    simp only [step]
    cases hA : s.activeIdx with
    | none => exact ⟨h1, h2, h3, h4⟩
    | some i =>
      dsimp only
      by_cases hg : s.phase i = TPhase.Proposing
      · rw [if_pos hg]
        have hiq := queue_ne_active s i ⟨h1, h2, h3, h4⟩ hA
        have hil := (h2 i hA).1
        have hinp : s.inProgress = true :=
          (h1 i hil (by rw [hg]; rfl)).2
        refine ⟨?_, ?_, ?_, ?_⟩
        · intro k hk hact
          dsimp only at hk hact ⊢
          by_cases hki : k = i
          · subst hki
            exact ⟨rfl, hinp⟩
          · rw [setPhase_other _ _ _ _ hki] at hact
            have hkA := (h1 k hk hact).1
            rw [hA] at hkA
            exact absurd (Option.some_injective _ hkA.symm) hki
        · intro k hk
          dsimp only at hk ⊢
          obtain rfl : i = k := Option.some_injective _ hk
          refine ⟨hil, ?_⟩
          rw [setPhase_self]
          simp
        · intro j hj
          dsimp only at hj ⊢
          refine ⟨(h3 j hj).1, ?_⟩
          rw [setPhase_other _ _ _ _ (hiq j hj)]
          exact (h3 j hj).2
        · exact h4
      · rw [if_neg hg]
        exact ⟨h1, h2, h3, h4⟩
  | proposalFail =>
    simp only [step]
    cases hA : s.activeIdx with
    | none => exact ⟨h1, h2, h3, h4⟩
    | some i =>
      dsimp only
      by_cases hg : s.phase i = TPhase.Proposing
      · rw [if_pos hg]
        exact inv_startFail s i ⟨h1, h2, h3, h4⟩ hA
      · rw [if_neg hg]
        exact ⟨h1, h2, h3, h4⟩
  | buyOk cid =>
    simp only [step]
    cases hA : s.activeIdx with
    | none => exact ⟨h1, h2, h3, h4⟩
    | some i =>
      dsimp only
      by_cases hg : s.phase i = TPhase.Executing
      · rw [if_pos hg]
        have hiq := queue_ne_active s i ⟨h1, h2, h3, h4⟩ hA
        have hil := (h2 i hA).1
        have hinp : s.inProgress = true :=
          (h1 i hil (by rw [hg]; rfl)).2
        refine ⟨?_, ?_, ?_, ?_⟩
        · intro k hk hact
          dsimp only at hk hact ⊢
          by_cases hki : k = i
          · subst hki
            exact ⟨rfl, hinp⟩
          · rw [setPhase_other _ _ _ _ hki] at hact
            have hkA := (h1 k hk hact).1
            rw [hA] at hkA
            exact absurd (Option.some_injective _ hkA.symm) hki
        · intro k hk
          dsimp only at hk ⊢
          obtain rfl : i = k := Option.some_injective _ hk
          refine ⟨hil, ?_⟩
          rw [setPhase_self]
          simp
        · intro j hj
          dsimp only at hj ⊢
          refine ⟨(h3 j hj).1, ?_⟩
          rw [setPhase_other _ _ _ _ (hiq j hj)]
          exact (h3 j hj).2
        · exact h4
      · rw [if_neg hg]
        exact ⟨h1, h2, h3, h4⟩
  | buyFail =>
    simp only [step]
    cases hA : s.activeIdx with
    | none => exact ⟨h1, h2, h3, h4⟩
    | some i =>
      dsimp only
      by_cases hg : s.phase i = TPhase.Executing
      · rw [if_pos hg]
        exact inv_startFail s i ⟨h1, h2, h3, h4⟩ hA
      · rw [if_neg hg]
        exact ⟨h1, h2, h3, h4⟩
  | pocSubFail =>
    simp only [step]
    cases hA : s.activeIdx with
    | none => exact ⟨h1, h2, h3, h4⟩
    | some i =>
      dsimp only
      by_cases hg : s.phase i = TPhase.AwaitingSettlement
      · rw [if_pos hg]
        exact inv_startFail s i ⟨h1, h2, h3, h4⟩ hA
      · rw [if_neg hg]
        exact ⟨h1, h2, h3, h4⟩
  | buyMsg cid =>
    simp only [step]
    cases hA : s.activeIdx with
    | none => exact ⟨h1, h2, h3, h4⟩
    | some i =>
      dsimp only
      refine ⟨?_, ?_, ?_, ?_⟩
      · intro k hk hact
        dsimp only at hk hact ⊢
        rw [← hA]
        exact h1 k hk hact
      · intro k hk
        dsimp only at hk ⊢
        rw [← hA] at hk
        exact h2 k hk
      · intro j hj
        dsimp only at hj ⊢
        exact h3 j hj
      · exact h4
  | settle p =>
    simp only [step]
    cases hA : s.activeIdx with
    | none => exact ⟨h1, h2, h3, h4⟩
    | some i =>
      dsimp only
      by_cases hg : s.activeCid = some p.contract_id ∧ isFinalPoc p = true
      · rw [if_pos hg]
        exact finish_pre s i .Settled ⟨h1, h2, h3, h4⟩ hA rfl _
      · rw [if_neg hg]
        exact ⟨h1, h2, h3, h4⟩
  | timeout cid =>
    simp only [step]
    cases hA : s.activeIdx with
    | none => exact ⟨h1, h2, h3, h4⟩
    | some i =>
      dsimp only
      by_cases hg : s.activeCid = some cid ∧ s.inProgress = true
      · rw [if_pos hg]
        exact finish_pre s i .TimedOut ⟨h1, h2, h3, h4⟩ hA rfl _
      · rw [if_neg hg]
        exact ⟨h1, h2, h3, h4⟩
  | authChange b =>
    simp only [step]
    exact ⟨h1, h2, h3, h4⟩

theorem inv_run (auth : Bool) (evs : List Ev) : Inv (run auth evs) := by
  have hgen : ∀ (l : List Ev) (s : EngState), Inv s → Inv (l.foldl step s) := by
    intro l
    induction l with
    | nil => intro s hs; exact hs
    | cons e rest ih =>
      intro s hs
      exact ih (step s e) (inv_step s e hs)
  exact hgen evs (initEng auth) (inv_initEng auth)

/-- C1: for every sequence of placeTrade submissions and inbound events, at
most one trade is in an active phase (Proposing, Executing or
AwaitingSettlement) at any instant; and while the execution slot is occupied
(trade.inProgress), a further submission only appends the new trade to the
FIFO queue as Queued, leaving the slot untouched. -/
theorem c1_single_active_trade (auth : Bool) (evs : List Ev) :
    (∀ i j, i < (run auth evs).numTrades → j < (run auth evs).numTrades →
      ((run auth evs).phase i).isActive = true →
      ((run auth evs).phase j).isActive = true → i = j)
    ∧ ((run auth evs).inProgress = true →
        (step (run auth evs) .submit).activeIdx = (run auth evs).activeIdx
        ∧ (step (run auth evs) .submit).inProgress = (run auth evs).inProgress
        ∧ (step (run auth evs) .submit).queue =
            (run auth evs).queue ++ [(run auth evs).numTrades]
        ∧ (step (run auth evs) .submit).phase (run auth evs).numTrades = .Queued
        ∧ (step (run auth evs) .submit).numTrades = (run auth evs).numTrades + 1) := by
  obtain ⟨h1, h2, h3, h4⟩ := inv_run auth evs
  constructor
  · intro i j hi hj hai haj
    have hA1 := (h1 i hi hai).1
    have hA2 := (h1 j hj haj).1
    rw [hA1] at hA2
    exact Option.some_injective _ hA2
  · intro hP
    simp only [step]
    rw [if_pos hP]
    exact ⟨rfl, rfl, rfl, setPhase_self _ _ _, rfl⟩

theorem c1_single_active_trade_witness :
    (0 < (run true [Ev.submit]).numTrades
      ∧ ((run true [Ev.submit]).phase 0).isActive = true
      ∧ (0 : Nat) = 0)
    ∧ ((run true [Ev.submit, Ev.submit]).inProgress = true
      ∧ (step (run true [Ev.submit, Ev.submit]) .submit).queue =
          (run true [Ev.submit, Ev.submit]).queue ++
            [(run true [Ev.submit, Ev.submit]).numTrades]) :=
  ⟨⟨by decide, by decide,
    (c1_single_active_trade true [Ev.submit]).1 0 0 (by decide) (by decide)
      (by decide) (by decide)⟩,
   ⟨by decide,
    ((c1_single_active_trade true [Ev.submit, Ev.submit]).2 (by decide)).2.2.1⟩⟩

theorem finishTrade_activeCid (s : EngState) : (finishTrade s).activeCid = none := by
  unfold finishTrade
  dsimp only
  cases s.queue with
  | nil => rfl
  | cons j rest =>
    dsimp only
    by_cases h : s.authorized = true
    · rw [if_pos h]
    · rw [if_neg h]

theorem step_timeout_noop (s : EngState) (c : Nat) (h : s.activeCid = none) :
    step s (.timeout c) = s := by
  simp only [step]
  cases hA : s.activeIdx with
  | none => rfl
  | some i =>
    dsimp only
    rw [if_neg]
    intro hcon
    rw [h] at hcon
    exact Option.noConfusion hcon.1

theorem step_settle_noop (s : EngState) (p : Poc) (h : s.activeCid = none) :
    step s (.settle p) = s := by
  simp only [step]
  cases hA : s.activeIdx with
  | none => rfl
  | some i =>
    dsimp only
    rw [if_neg]
    intro hcon
    rw [h] at hcon
    exact Option.noConfusion hcon.1

/-- C2: for an active trade with contract id c, at most one finalize takes
effect.  Whichever of the final settlement event for c or the safety timeout
fires first finalizes the trade and clears the active contract id marker, so
the later one observes its guard false and leaves the whole state (in
particular lastResult and the execution slot) unchanged. -/
theorem c2_finalize_idempotent (s : EngState) (p : Poc)
    (hA : s.activeIdx.isSome = true) (hcid : s.activeCid = some p.contract_id)
    (hfin : isFinalPoc p = true) (hprog : s.inProgress = true) :
    ((step s (.settle p)).activeCid = none
      ∧ step (step s (.settle p)) (.timeout p.contract_id) = step s (.settle p))
    ∧ ((step s (.timeout p.contract_id)).activeCid = none
      ∧ step (step s (.timeout p.contract_id)) (.settle p) =
          step s (.timeout p.contract_id)) := by
  obtain ⟨i, hAi⟩ := Option.isSome_iff_exists.mp hA
  have hc1 : (step s (.settle p)).activeCid = none := by
    simp only [step]
    rw [hAi]
    dsimp only
    rw [if_pos ⟨hcid, hfin⟩]
    exact finishTrade_activeCid _
  have hc2 : (step s (.timeout p.contract_id)).activeCid = none := by
    simp only [step]
    rw [hAi]
    dsimp only
    rw [if_pos ⟨hcid, hprog⟩]
    exact finishTrade_activeCid _
  exact ⟨⟨hc1, step_timeout_noop _ _ hc1⟩, ⟨hc2, step_settle_noop _ _ hc2⟩⟩

theorem c2_finalize_idempotent_witness :
    ((run true [Ev.submit, Ev.proposalOk, Ev.buyOk 7]).activeIdx.isSome = true
      ∧ (run true [Ev.submit, Ev.proposalOk, Ev.buyOk 7]).activeCid = some 7
      ∧ isFinalPoc ⟨7, true, "won", some 30, some 65, some 35, some 65⟩ = true
      ∧ (run true [Ev.submit, Ev.proposalOk, Ev.buyOk 7]).inProgress = true)
    ∧ (step (run true [Ev.submit, Ev.proposalOk, Ev.buyOk 7])
        (.settle ⟨7, true, "won", some 30, some 65, some 35, some 65⟩)).activeCid = none :=
  ⟨⟨by decide, by decide, by decide, by decide⟩,
   ((c2_finalize_idempotent (run true [Ev.submit, Ev.proposalOk, Ev.buyOk 7])
      ⟨7, true, "won", some 30, some 65, some 35, some 65⟩
      (by decide) (by decide) (by decide) (by decide)).1).1⟩

/-- C4 (code bug witness): with the slot free, a direct placeTrade whose
proposal response lacks a proposal id throws out of _startTrade; no buy is
ever sent, but the execution slot is NOT released: trade.inProgress stays
true and trade.active stays set, no result is recorded, and a later
submission is queued instead of started.  This contradicts the specified
behavior that the slot is released on a missing proposal id. -/
theorem c4_missing_proposal_id_slot_stuck :
    (run true [Ev.submit, Ev.proposalFail]).inProgress = true
    ∧ (run true [Ev.submit, Ev.proposalFail]).activeIdx = some 0
    ∧ (run true [Ev.submit, Ev.proposalFail]).phase 0 = TPhase.Failed
    ∧ (run true [Ev.submit, Ev.proposalFail]).sent = [SendKind.proposal]
    ∧ (run true [Ev.submit, Ev.proposalFail]).lastResult = none
    ∧ (step (run true [Ev.submit, Ev.proposalFail]) Ev.submit).queue = [1]
    ∧ (step (run true [Ev.submit, Ev.proposalFail]) Ev.submit).activeIdx = some 0 := by
  decide

/-- C7: a failure while starting the next queued trade after a finalize does
not propagate: the catch handler records an error result as lastResult and
re-frees the execution slot.  Both the asynchronous failure of a
queue-started trade (first conjunct) and the synchronous throw when starting
the next queued trade unauthorized during a finalize (second conjunct) leave
inProgress false and active cleared, with lastResult the error result. -/
theorem c7_queue_start_failure_contained :
    (∀ s i, s.activeIdx = some i → s.fromQueue = true →
      s.phase i = TPhase.Proposing →
      (step s .proposalFail).inProgress = false
      ∧ (step s .proposalFail).activeIdx = none
      ∧ (step s .proposalFail).lastResult = some errResult)
    ∧ (∀ s p j rest, s.activeIdx.isSome = true →
        s.activeCid = some p.contract_id → isFinalPoc p = true →
        s.queue = j :: rest → s.authorized = false →
        (step s (.settle p)).inProgress = false
        ∧ (step s (.settle p)).activeIdx = none
        ∧ (step s (.settle p)).lastResult = some errResult
        ∧ (step s (.settle p)).queue = rest) := by
  constructor
  · intro s i hA hq hph
    simp only [step]
    rw [hA]
    dsimp only
    rw [if_pos hph]
    unfold startFail
    rw [if_pos hq]
    exact ⟨rfl, rfl, rfl⟩
  · intro s p j rest hA hcid hfin hqueue hauth
    obtain ⟨i, hAi⟩ := Option.isSome_iff_exists.mp hA
    simp only [step]
    rw [hAi]
    dsimp only
    rw [if_pos ⟨hcid, hfin⟩]
    unfold finishTrade
    dsimp only
    rw [hqueue]
    dsimp only
    rw [if_neg (by simp [hauth])]
    exact ⟨rfl, rfl, rfl, rfl⟩

theorem c7_queue_start_failure_contained_witness :
    ((run true [Ev.submit, Ev.submit, Ev.proposalOk, Ev.buyOk 5, Ev.timeout 5]).activeIdx
        = some 1
      ∧ (run true [Ev.submit, Ev.submit, Ev.proposalOk, Ev.buyOk 5, Ev.timeout 5]).fromQueue
        = true
      ∧ (run true [Ev.submit, Ev.submit, Ev.proposalOk, Ev.buyOk 5, Ev.timeout 5]).phase 1
        = TPhase.Proposing)
    ∧ (step (run true [Ev.submit, Ev.submit, Ev.proposalOk, Ev.buyOk 5, Ev.timeout 5])
        .proposalFail).lastResult = some errResult :=
  ⟨⟨by decide, by decide, by decide⟩,
   (c7_queue_start_failure_contained.1
      (run true [Ev.submit, Ev.submit, Ev.proposalOk, Ev.buyOk 5, Ev.timeout 5]) 1
      (by decide) (by decide) (by decide)).2.2⟩

/-! ## Reconnect backoff -/

/-- Connection-level state relevant to reconnection: the connected and
authorized flags, the reconnect attempt counter and the last recorded
error. -/
structure ConnState where
  connected : Bool
  authorized : Bool
  reconnectAttempt : Nat
  lastError : Option String
  deriving DecidableEq, Repr

/-- The ws open handler (lines 43-47): marks connected, clears lastError and
resets the reconnect attempt counter to zero.  This happens on socket open
(Connected), before the authorize request is even sent. -/
def openStep (s : ConnState) : ConnState :=
  { s with connected := true, lastError := none, reconnectAttempt := 0 }

/-- _reconnect (lines 160-173): increments the attempt counter FIRST, then
computes delay = min(maxDelay, baseDelay * 2 ^ min(attempt, 8)) with the new
counter value.  Returns the delay waited and the updated counter. -/
def reconnectStep (base maxD attempt : Nat) : Nat × Nat :=
  let a := attempt + 1
  (min maxD (base * 2 ^ (min a 8)), a)

/-- Delays observed over n consecutive reconnect failures starting from a
given attempt counter value. -/
def reconnectDelays (base maxD : Nat) : Nat → Nat → List Nat
  | 0, _ => []
  | n + 1, attempt =>
    (reconnectStep base maxD attempt).1 ::
      reconnectDelays base maxD n (reconnectStep base maxD attempt).2

/-- C5 counterexample: with baseDelay 100 and maxDelay 100000, five
consecutive reconnect failures from a fresh counter wait 200, 400, 800,
1600, 3200 ms, not the claimed 100, 200, 400, 800, 1600: the counter is
incremented before the delay is computed, so the first failure already waits
2 x base.  Also, the counter is reset on socket open, before authorization. -/
theorem c5_counterexample :
    reconnectDelays 100 100000 5 0 = [200, 400, 800, 1600, 3200]
    ∧ reconnectDelays 100 100000 5 0 ≠ [100, 200, 400, 800, 1600]
    ∧ (openStep ⟨false, false, 5, some "err"⟩).reconnectAttempt = 0 := by
  decide

/-- C5 (amended): the delay computed after the k-th consecutive failure is
min(maxDelay, baseDelay * 2 ^ min(k, 8)) where k is the post-increment
counter value; five consecutive failures from a fresh counter therefore wait
2 base, 4 base, 8 base, 16 base, 32 base, each capped at maxDelay; and the
counter is reset to zero when the socket opens. -/
theorem c5_backoff_amended (base maxD : Nat) :
    (∀ attempt, (reconnectStep base maxD attempt).1 =
        min maxD (base * 2 ^ (min (attempt + 1) 8))
      ∧ (reconnectStep base maxD attempt).2 = attempt + 1)
    ∧ reconnectDelays base maxD 5 0 =
        [min maxD (base * 2), min maxD (base * 4), min maxD (base * 8),
         min maxD (base * 16), min maxD (base * 32)]
    ∧ (∀ s : ConnState, (openStep s).reconnectAttempt = 0) := by
  refine ⟨fun attempt => ⟨rfl, rfl⟩, ?_, fun s => rfl⟩
  simp only [reconnectDelays, reconnectStep]
  norm_num

/-! ## Request correlation table -/

/-- A PendingRequest entry: {resolve, reject, ts, type} (line 182), with the
promise callbacks abstracted into a ghost request tag identifying the
request, and the timestamp not modelled. -/
structure PendingEntry where
  tag : Nat
  type : String
  deriving DecidableEq, Repr

/-- How a pending request was completed. -/
inductive Comp where
  | resolved
  | rejectedErr
  | expired
  deriving DecidableEq, Repr

/-- Lookup in the pending Map (Map.get / Map.has). -/
def mapLookup : List (Nat × PendingEntry) → Nat → Option PendingEntry
  | [], _ => none
  | kv :: rest, k => if kv.1 = k then some kv.2 else mapLookup rest k

/-- Map.set: replace the entry under an existing key, else append. -/
def mapSet : List (Nat × PendingEntry) → Nat → PendingEntry →
    List (Nat × PendingEntry)
  | [], k, v => [(k, v)]
  | kv :: rest, k, v =>
    if kv.1 = k then (k, v) :: rest else kv :: mapSet rest k v

/-- Map.delete: remove the entry under a key. -/
def mapDelete : List (Nat × PendingEntry) → Nat → List (Nat × PendingEntry)
  | [], _ => []
  | kv :: rest, k => if kv.1 = k then mapDelete rest k else kv :: mapDelete rest k

/-- Keys of the pending table. -/
def mapKeys (l : List (Nat × PendingEntry)) : List Nat := l.map Prod.fst

/-- State of the request correlator: the pending Map (req_id to
PendingRequest) and a ghost log of completed requests (by tag). -/
structure CorrState where
  pending : List (Nat × PendingEntry)
  completed : List (Nat × Comp)
  deriving DecidableEq, Repr

/-- _nextReqId (lines 28-30): Math.floor(Math.random() * 1e9); the random
draw is an input, reduced into [0, 1e9). -/
def nextReqId (rand : Nat) : Nat := rand % 1000000000

/-- The synchronous part of send (lines 175-193): allocate an id from the
random draw and store the pending entry under it in the Map (overwriting any
entry already stored under that id, as Map.set does). -/
def sendStep (s : CorrState) (rand : Nat) (e : PendingEntry) : Nat × CorrState :=
  (nextReqId rand, { s with pending := mapSet s.pending (nextReqId rand) e })

/-- req_id resolution in the message handler (lines 79-84): if the id is
pending, remove it and complete the request — with failure when the message
carries an error, else with success. -/
def resolveStep (s : CorrState) (id : Nat) (isErr : Bool) : CorrState :=
  match mapLookup s.pending id with
  | some e =>
    { pending := mapDelete s.pending id
      completed := s.completed ++
        [(e.tag, if isErr then Comp.rejectedErr else Comp.resolved)] }
  | none => s

/-- The 15 second safety timeout armed in send (lines 184-189): if the id is
still pending, remove it and reject with a timeout failure; otherwise do
nothing. -/
def expireStep (s : CorrState) (id : Nat) : CorrState :=
  match mapLookup s.pending id with
  | some e =>
    { pending := mapDelete s.pending id
      completed := s.completed ++ [(e.tag, Comp.expired)] }
  | none => s

/-- Fresh correlator state. -/
def corrInit : CorrState := ⟨[], []⟩

theorem mapLookup_mapDelete_self (l : List (Nat × PendingEntry)) (k : Nat) :
    mapLookup (mapDelete l k) k = none := by
  induction l with
  | nil => rfl
  | cons kv rest ih =>
    simp only [mapDelete]
    by_cases h : kv.1 = k
    · rw [if_pos h]
      exact ih
    · rw [if_neg h]
      simp only [mapLookup]
      rw [if_neg h]
      exact ih

theorem mapLookup_mapSet_self (l : List (Nat × PendingEntry)) (k : Nat)
    (v : PendingEntry) : mapLookup (mapSet l k v) k = some v := by
  induction l with
  | nil =>
    simp [mapSet, mapLookup]
  | cons kv rest ih =>
    simp only [mapSet]
    by_cases h : kv.1 = k
    · rw [if_pos h]
      simp [mapLookup]
    · rw [if_neg h]
      simp only [mapLookup]
      rw [if_neg h]
      exact ih

theorem mapKeys_mapSet_sub (l : List (Nat × PendingEntry)) (k : Nat)
    (v : PendingEntry) :
    ∀ x, x ∈ mapKeys (mapSet l k v) → x = k ∨ x ∈ mapKeys l := by
  induction l with
  | nil =>
    intro x hx
    simp [mapSet, mapKeys] at hx
    exact Or.inl hx
  | cons kv rest ih =>
    intro x hx
    simp only [mapSet] at hx
    by_cases h : kv.1 = k
    · rw [if_pos h] at hx
      simp only [mapKeys, List.map_cons, List.mem_cons] at hx ⊢
      rcases hx with hx | hx
      · exact Or.inl hx
      · exact Or.inr (Or.inr hx)
    · rw [if_neg h] at hx
      simp only [mapKeys, List.map_cons, List.mem_cons] at hx ⊢
      rcases hx with hx | hx
      · exact Or.inr (Or.inl hx)
      · rcases ih x hx with hx' | hx'
        · exact Or.inl hx'
        · exact Or.inr (Or.inr hx')

theorem mapKeys_mapSet_nodup (l : List (Nat × PendingEntry)) (k : Nat)
    (v : PendingEntry) (h : (mapKeys l).Nodup) :
    (mapKeys (mapSet l k v)).Nodup := by
  induction l with
  | nil => simp [mapSet, mapKeys]
  | cons kv rest ih =>
    simp only [mapKeys, List.map_cons, List.nodup_cons] at h
    simp only [mapSet]
    by_cases hk : kv.1 = k
    · rw [if_pos hk]
      simp only [mapKeys, List.map_cons, List.nodup_cons]
      exact ⟨by rw [← hk]; exact h.1, h.2⟩
    · rw [if_neg hk]
      simp only [mapKeys, List.map_cons, List.nodup_cons]
      refine ⟨?_, ih h.2⟩
      intro hmem
      rcases mapKeys_mapSet_sub rest k v kv.1 hmem with he | he
      · exact hk he
      · exact h.1 he

/-- C6 counterexample: correlation ids are random draws with no liveness
check.  From the empty table, a send with random draw 5 stores an entry
under id 5; a second send with the same draw allocates id 5 again — an id
that IS currently live — and overwrites the first PendingRequest. -/
theorem c6_counterexample :
    (sendStep (sendStep corrInit 5 ⟨1, "proposal"⟩).2 5 ⟨2, "buy"⟩).1 ∈
      mapKeys (sendStep corrInit 5 ⟨1, "proposal"⟩).2.pending
    ∧ mapLookup (sendStep corrInit 5 ⟨1, "proposal"⟩).2.pending 5
        = some ⟨1, "proposal"⟩
    ∧ mapLookup (sendStep (sendStep corrInit 5 ⟨1, "proposal"⟩).2 5
        ⟨2, "buy"⟩).2.pending 5 = some ⟨2, "buy"⟩ := by
  decide

/-- C6 (amended): the correlation id is a uniform random draw in [0, 1e9)
with no check against live ids, so an id can repeat while live; when it
does, send overwrites the existing PendingRequest.  The table itself still
maps each id to at most one PendingRequest: after any send, the new id maps
to the new entry and the table keys stay duplicate-free. -/
theorem c6_send_overwrites (s : CorrState) (rand : Nat) (e : PendingEntry)
    (h : (mapKeys s.pending).Nodup) :
    mapLookup (sendStep s rand e).2.pending (sendStep s rand e).1 = some e
    ∧ (mapKeys (sendStep s rand e).2.pending).Nodup
    ∧ (sendStep s rand e).1 = rand % 1000000000 := by
  refine ⟨?_, ?_, rfl⟩
  · exact mapLookup_mapSet_self _ _ _
  · exact mapKeys_mapSet_nodup _ _ _ h

theorem c6_send_overwrites_witness :
    (mapKeys (⟨[(5, ⟨1, "proposal"⟩)], []⟩ : CorrState).pending).Nodup
    ∧ mapLookup (sendStep ⟨[(5, ⟨1, "proposal"⟩)], []⟩ 5 ⟨2, "buy"⟩).2.pending
        (sendStep ⟨[(5, ⟨1, "proposal"⟩)], []⟩ 5 ⟨2, "buy"⟩).1 = some ⟨2, "buy"⟩ :=
  ⟨by decide,
   (c6_send_overwrites ⟨[(5, ⟨1, "proposal"⟩)], []⟩ 5 ⟨2, "buy"⟩ (by decide)).1⟩

/-- C8: for a pending request id, resolution and expiry are mutually
exclusive.  Whichever of resolve (matching inbound message) or expire (15s
safety timeout) acts first removes the table entry and completes the
request; the other then finds the entry absent and leaves the state — the
table and the completion log — entirely unchanged. -/
theorem c8_resolve_expire_exclusive (s : CorrState) (id : Nat) (b : Bool)
    (h : (mapLookup s.pending id).isSome = true) :
    (mapLookup (resolveStep s id b).pending id = none
      ∧ expireStep (resolveStep s id b) id = resolveStep s id b)
    ∧ (mapLookup (expireStep s id).pending id = none
      ∧ resolveStep (expireStep s id) id b = expireStep s id) := by
  obtain ⟨e, he⟩ := Option.isSome_iff_exists.mp h
  have h1 : mapLookup (resolveStep s id b).pending id = none := by
    unfold resolveStep
    rw [he]
    exact mapLookup_mapDelete_self _ _
  have h2 : mapLookup (expireStep s id).pending id = none := by
    unfold expireStep
    rw [he]
    exact mapLookup_mapDelete_self _ _
  refine ⟨⟨h1, ?_⟩, ⟨h2, ?_⟩⟩
  · unfold expireStep
    rw [h1]
  · unfold resolveStep
    rw [h2]

theorem c8_resolve_expire_exclusive_witness :
    (mapLookup (⟨[(5, ⟨1, "proposal"⟩)], []⟩ : CorrState).pending 5).isSome = true
    ∧ expireStep (resolveStep ⟨[(5, ⟨1, "proposal"⟩)], []⟩ 5 false) 5
        = resolveStep ⟨[(5, ⟨1, "proposal"⟩)], []⟩ 5 false :=
  ⟨by decide,
   ((c8_resolve_expire_exclusive ⟨[(5, ⟨1, "proposal"⟩)], []⟩ 5 false
      (by decide)).1).2⟩

/-! ## Tick buffer -/

/-- A price tick as delivered in a tick stream message; the symbol may be
absent (msg.tick?.symbol). -/
structure Tick where
  symbol : Option String
  quote : Int
  epoch : Nat
  deriving DecidableEq, Repr

/-- state.ticks: the subscribed symbol, the latest tick and the bounded
history buffer. -/
structure TickState where
  symbol : String
  last : Option Tick
  buffer : List Tick
  deriving DecidableEq, Repr

/-- The suffix of a list keeping at most c trailing elements. -/
def keepLast {a : Type} (c : Nat) (l : List a) : List a :=
  l.drop (l.length - c)

/-- The tick stream handler (lines 87-95): update the symbol when the tick
carries one, set last, push onto the buffer, and when the buffer length
exceeds maxTicksBuffer splice that many elements off the front. -/
def onTick (maxTicksBuffer : Nat) (s : TickState) (t : Tick) : TickState :=
  let symbol := match t.symbol with
    | some sym => sym
    | none => s.symbol
  let buffer0 := s.buffer ++ [t]
  let buffer := if maxTicksBuffer < buffer0.length then
      buffer0.drop (buffer0.length - maxTicksBuffer)
    else buffer0
  { symbol := symbol, last := some t, buffer := buffer }

/-- subscribeTicks (lines 195-201): record the new symbol and clear the
history buffer. -/
def subscribeTicks (s : TickState) (symbol : String) : TickState :=
  { s with symbol := symbol, buffer := [] }

theorem onTick_buffer (c : Nat) (s : TickState) (t : Tick) :
    (onTick c s t).buffer = keepLast c (s.buffer ++ [t]) := by
  unfold onTick keepLast
  dsimp only
  by_cases h : c < (s.buffer ++ [t]).length
  · rw [if_pos h]
  · rw [if_neg h]
    have h0 : (s.buffer ++ [t]).length - c = 0 := by omega
    rw [h0, List.drop_zero]

theorem keepLast_length {a : Type} (c : Nat) (l : List a) :
    (keepLast c l).length ≤ c := by
  unfold keepLast
  rw [List.length_drop]
  omega

theorem keepLast_append {a : Type} (c : Nat) (l ts : List a) :
    keepLast c (keepLast c l ++ ts) = keepLast c (l ++ ts) := by
  unfold keepLast
  by_cases h : l.length ≤ c
  · have h0 : l.length - c = 0 := by omega
    rw [h0, List.drop_zero]
  · have hd : l.length - c ≤ l.length := by omega
    have h2 : (l ++ ts).length - c =
        (l.length - c) + ((List.drop (l.length - c) l ++ ts).length - c) := by
      rw [List.length_append, List.length_append, List.length_drop]
      omega
    rw [h2, ← List.drop_drop, List.drop_append_of_le_length hd]

/-- C9: over any sequence of tick arrivals, onTick sets last to the received
tick, appends to the history and evicts from the front once the capacity is
exceeded: afterwards the buffer is exactly the suffix of the arrival
sequence (prior buffer then new ticks) of length at most the capacity, so
the retained ticks are the most recent ones in arrival order. -/
theorem c9_tick_buffer_bounded (c : Nat) (s : TickState) (ts : List Tick)
    (h : s.buffer.length ≤ c) :
    (∀ s0 t, (onTick c s0 t).last = some t)
    ∧ (ts.foldl (onTick c) s).buffer = keepLast c (s.buffer ++ ts)
    ∧ ((ts.foldl (onTick c) s).buffer).length ≤ c := by
  have key : ∀ (l : List Tick) (s1 : TickState), s1.buffer.length ≤ c →
      (l.foldl (onTick c) s1).buffer = keepLast c (s1.buffer ++ l) := by
    intro l
    induction l with
    | nil =>
      intro s1 hs
      have h0 : s1.buffer.length - c = 0 := by omega
      simp [keepLast, h0]
    | cons t rest ih =>
      intro s1 hs
      rw [List.foldl_cons]
      have h1 : (onTick c s1 t).buffer.length ≤ c := by
        rw [onTick_buffer]
        exact keepLast_length c _
      rw [ih (onTick c s1 t) h1, onTick_buffer, keepLast_append]
      rw [List.append_assoc, List.singleton_append]
  refine ⟨fun s0 t => rfl, key ts s h, ?_⟩
  rw [key ts s h]
  exact keepLast_length c _

theorem c9_tick_buffer_bounded_witness :
    ((⟨"R_50", none, []⟩ : TickState).buffer.length ≤ 2)
    ∧ ([⟨none, 1, 10⟩, ⟨none, 2, 11⟩, ⟨none, 3, 12⟩].foldl (onTick 2)
        ⟨"R_50", none, []⟩).buffer =
      keepLast 2 ((⟨"R_50", none, []⟩ : TickState).buffer ++
        [⟨none, 1, 10⟩, ⟨none, 2, 11⟩, ⟨none, 3, 12⟩]) :=
  ⟨by decide,
   (c9_tick_buffer_bounded 2 ⟨"R_50", none, []⟩
      [⟨none, 1, 10⟩, ⟨none, 2, 11⟩, ⟨none, 3, 12⟩] (by decide)).2.1⟩

/-! ## Admission latency of placeTrade -/

/-- Network round trips the caller of placeTrade can end up awaiting. -/
inductive NetAwait where
  | proposal
  | buy
  | pocSub
  deriving DecidableEq, Repr

/-- Outcome of an awaited send: the response arrived and the extracted
identifier was present or absent, or the send rejected (error or timeout). -/
inductive SendRes where
  | ok (v : Option Nat)
  | failed
  deriving DecidableEq, Repr

/-- Responses the network will give to the start sequence of a trade. -/
structure StartOracle where
  proposalRes : SendRes
  buyRes : SendRes
  subRes : SendRes
  deriving DecidableEq, Repr

/-- placeTrade (lines 203-215) with the awaits of _startTrade (lines
217-282) made explicit.  Returns whether the submission was queued, and the
list of network round trips placeTrade awaits before its returned value is
produced.  With the slot held it returns synchronously with no awaits; with
the slot free it awaits _startTrade, i.e. the proposal round trip, then on
success the buy round trip, then the settlement-subscription round trip
(when unauthorized _startTrade throws before any send). -/
def placeTradeAwaits (inProgress authorized : Bool) (o : StartOracle) :
    Bool × List NetAwait :=
  if inProgress then (true, [])
  else if authorized then
    match o.proposalRes with
    | .failed => (false, [.proposal])
    | .ok none => (false, [.proposal])
    | .ok (some _) =>
      match o.buyRes with
      | .failed => (false, [.proposal, .buy])
      | .ok none => (false, [.proposal, .buy])
      | .ok (some _) => (false, [.proposal, .buy, .pocSub])
  else (false, [])

/-- C3 counterexample: with the execution slot free (and the client
authorized), placeTrade does NOT return synchronously: it awaits the whole
start sequence — proposal, buy and settlement-subscription round trips —
before its returned value is produced, contradicting the claim that the
returned value is produced without awaiting any network round trip whether
the slot is free or held. -/
theorem c3_counterexample :
    (placeTradeAwaits false true ⟨.ok (some 1), .ok (some 2), .ok none⟩).2 ≠ []
    ∧ (placeTradeAwaits false true ⟨.ok (some 1), .ok (some 2), .ok none⟩).2 =
        [.proposal, .buy, .pocSub] := by
  decide

/-- C3 (amended): when the execution slot is held, placeTrade decides and
returns synchronously (queued, no network awaits); when the slot is free,
the returned value is produced only after awaiting the start sequence, whose
first awaited round trip is the proposal request. -/
theorem c3_placeTrade_awaits (a : Bool) (o : StartOracle) :
    placeTradeAwaits true a o = (true, [])
    ∧ (placeTradeAwaits false true o).2.head? = some .proposal := by
  constructor
  · rfl
  · rcases o with ⟨pr, br, sr⟩
    cases pr with
    | failed => rfl
    | ok v =>
      cases v with
      | none => rfl
      | some pid =>
        cases br with
        | failed => rfl
        | ok w =>
          cases w with
          | none => rfl
          | some cid => rfl

/-! ## Inbound message dispatcher -/

/-- An inbound stream message after JSON parsing: the fields the dispatcher
(lines 70-134) reads. -/
structure Msg where
  req_id : Option Nat
  error : Option (String × String)
  msg_type : String
  tick : Option Tick
  buy_contract_id : Option Nat
  poc : Option Poc

/-- The whole per-process mutable state touched by the dispatcher. -/
structure SysState where
  corr : CorrState
  ticks : TickState
  engine : EngState
  lastError : Option String

/-- Body of the ws message handler for a successfully parsed message (lines
78-133): resolve the pending request carrying the req_id, then the tick
handler, the buy stream handler and the proposal_open_contract handler, then
record any error as lastError. -/
def handleMessage (maxTicksBuffer : Nat) (s : SysState) (m : Msg) : SysState :=
  let s1 := match m.req_id with
    | some id => { s with corr := resolveStep s.corr id m.error.isSome }
    | none => s
  let s2 := if m.msg_type = "tick" then
      match m.tick with
      | some t => { s1 with ticks := onTick maxTicksBuffer s1.ticks t }
      | none => s1
    else s1
  let s3 := if m.msg_type = "buy" then
      match m.buy_contract_id with
      | some cid => { s2 with engine := step s2.engine (.buyMsg cid) }
      | none => s2
    else s2
  let s4 := if m.msg_type = "proposal_open_contract" then
      match m.poc with
      | some p => { s3 with engine := step s3.engine (.settle p) }
      | none => s3
    else s3
  match m.error with
  | some e => { s4 with lastError := some (e.1 ++ ": " ++ e.2) }
  | none => s4

/-- The ws message handler (lines 70-76): the raw payload is first parsed as
JSON inside a try/catch whose catch simply returns.  The parse outcome is
modelled as an Option: none means the payload was not valid JSON. -/
def onRawMessage (maxTicksBuffer : Nat) (s : SysState) (parsed : Option Msg) :
    SysState :=
  match parsed with
  | none => s
  | some m => handleMessage maxTicksBuffer s m

/-- C10: an inbound transport message whose payload is not valid JSON is
silently ignored: the dispatcher returns without resolving any pending
request, without touching the tick buffer or the trade state and without
recording an error — the whole process state is unchanged. -/
theorem c10_invalid_json_noop (maxTicksBuffer : Nat) (s : SysState) :
    onRawMessage maxTicksBuffer s none = s :=
  rfl

end Deriv
